import Mathlib

/-!
Verification of the Monte-Carlo tournament simulator (`src/baseline.py`,
`src/swiss.py`, `src/main.py`, `src/real_validation.py`).

Embedding conventions:
* Python floats are modelled as exact real numbers (`ℝ`); Elo ratings are `ℤ`.
* The shared seeded PRNG is abstracted as explicit draw streams: uniform
  draws in `[0,1)` become `ℝ` parameters, `rng.shuffle` results become list
  parameters (hypothesised to be permutations of what was shuffled), and
  `rng.choice(c, size=2, replace=False)` becomes a pair of position picks
  (`drawTwo`), which fails — as NumPy does — iff fewer than 2 candidates exist.
* Fallible operations (out-of-range list indexing, exhausted sampling)
  return `Option`.
-/

namespace SimTools

/-- Constant `DRAW_PROB = 0.25` of `baseline.py` / `swiss.py` / `main.py`. -/
noncomputable def DRAW_PROB : ℝ := 0.25

/-- Function `win_probability(elo_a, elo_b)` of `baseline.py` line 93 (identical in
`swiss.py` line 99 and `main.py` line 92): `1.0 / (1.0 + 10 ** (-(elo_a - elo_b) / 400.0))`. -/
noncomputable def win_probability (elo_a elo_b : ℤ) : ℝ :=
  1 / (1 + (10 : ℝ) ^ (-((elo_a - elo_b : ℤ) : ℝ) / 400))

/-- Function `simulate_match(elo_a, elo_b)` of `baseline.py` lines 115-127 (identical in
`swiss.py` and `main.py`); the uniform draw `r = rng.random()` is passed explicitly. -/
noncomputable def simulate_match (elo_a elo_b : ℤ) (r : ℝ) : ℤ × ℤ :=
  let p_win_a := win_probability elo_a elo_b
  let p_draw := DRAW_PROB
  let p_win_a_adj := (1 - p_draw) * p_win_a
  if r < p_draw then (1, 1)
  else if r < p_draw + p_win_a_adj then (3, 0)
  else (0, 3)

/-- Constant `WEAK_ELO_THRESHOLD = 1500` of `real_validation.py`; ratings loaded
from CSV are floats, modelled as `ℚ`. -/
def WEAK_ELO_THRESHOLD : ℚ := 1500

/-- Function `count_weak(teams, elo_map)` of `real_validation.py` lines 30-35.  The
Python dict is modelled as an association list; `t in elo_map` and the guarded
access `elo_map[t]` together become a single `lookup`. -/
def count_weak (teams : List String) (elo_map : List (String × ℚ)) : ℕ :=
  teams.foldl
    (fun weak t =>
      match elo_map.lookup t with
      | some v => if v < WEAK_ELO_THRESHOLD then weak + 1 else weak
      | none => weak)
    0

/-- Group construction of `simulate_group_stage`, `baseline.py` line 153:
`groups = [indices[i * 4:(i + 1) * 4] for i in range(8)]`.  The shuffled
`indices` array is a parameter. -/
def make_groups (indices : List ℕ) : List (List ℕ) :=
  (List.range 8).map (fun g => (indices.drop (4 * g)).take 4)

/-- Point update `points[a] += v` on the accumulator array. -/
def addPts (pts : ℕ → ℤ) (a : ℕ) (v : ℤ) : ℕ → ℤ :=
  fun k => if k = a then pts k + v else pts k

/-- Inner double-round-robin loop of `simulate_group_stage`, `baseline.py`
lines 156-173: for each pair `(i, j)` with `i < j` of the 4 group slots, play two
matches and add both sides' points.  `c` indexes the uniform draw stream, two
draws per pairing; out-of-range team indices (Python `IndexError`) give `none`. -/
noncomputable def playPairs (teams : List (String × ℤ)) (g : List ℕ) (rs : ℕ → ℝ) :
    List (ℕ × ℕ) → ℕ → (ℕ → ℤ) → Option (ℕ → ℤ)
  | [], _, pts => some pts
  | ij :: rest, c, pts =>
    match g.get? ij.1, g.get? ij.2 with
    | some a, some b =>
      match teams.get? a, teams.get? b with
      | some ta, some tb =>
        let m1 := simulate_match ta.2 tb.2 (rs c)
        let m2 := simulate_match ta.2 tb.2 (rs (c + 1))
        playPairs teams g rs rest (c + 2)
          (addPts (addPts (addPts (addPts pts a m1.1) b m1.2) a m2.1) b m2.2)
      | _, _ => none
    | _, _ => none

/-- The pairs `(i, j)`, `0 ≤ i < j < 4`, in the nested-loop order of
`baseline.py` lines 157-158. -/
def groupPairs : List (ℕ × ℕ) := [(0, 1), (0, 2), (0, 3), (1, 2), (1, 3), (2, 3)]

/-- Point accumulation over all groups, `baseline.py` lines 156-173. -/
noncomputable def groupPoints (teams : List (String × ℤ)) (rs : ℕ → ℝ) :
    List (List ℕ) → ℕ → (ℕ → ℤ) → Option (ℕ → ℤ)
  | [], _, pts => some pts
  | g :: gs, c, pts =>
    match playPairs teams g rs groupPairs c pts with
    | some pts2 => groupPoints teams rs gs (c + 12) pts2
    | none => none

/-- Function `simulate_group_stage(teams)` of `baseline.py` lines 133-175.  The
result of `rng.shuffle(np.arange(32))` is the parameter `indices`; the function
builds the 8 groups of 4 and accumulates points over the double round-robin. -/
noncomputable def simulate_group_stage (teams : List (String × ℤ)) (indices : List ℕ)
    (rs : ℕ → ℝ) : List (List ℕ) × Option (ℕ → ℤ) :=
  (make_groups indices, groupPoints teams rs (make_groups indices) 0 (fun _ => 0))

/-- Group ranking of `simulate_one_baseline_season`, `baseline.py` line 199:
`ranked = sorted(group, key=lambda idx: points[idx], reverse=True)`.  Python's
`sorted` is a stable sort; with `reverse=True` equal-key elements keep their
original relative order, which is exactly `insertionSort` with the non-strict
descending-key relation. -/
def rank_group (pts : ℕ → ℤ) (group : List ℕ) : List ℕ :=
  List.insertionSort (fun a b => pts b ≤ pts a) group

/-- Modelled from the spec: a ranking that sorts by points descending and breaks
equal-points ties by the teams' original (numeric) index order, as asserted in
the spec's tie-breaking note.  Used only to compare against `rank_group`. -/
def rank_by_index (pts : ℕ → ℤ) (group : List ℕ) : List ℕ :=
  List.insertionSort (fun a b => pts b < pts a ∨ (pts a = pts b ∧ a ≤ b)) group

/-- Season ranking of `simulate_one_swiss_season`, `swiss.py` lines 230-231 /
`main.py` lines 220-221: `order = np.argsort(-points)` followed by
`ranked = [(teams[k][0], teams[k][1], int(points[k])) for k in order]`.
NumPy's default sort kind documents no stability, so `order` is a parameter
(constrained, where needed, to be a points-descending permutation). -/
def swiss_ranked (teams : List (String × ℤ)) (pts : ℕ → ℤ) (order : List ℕ) :
    List (String × ℤ × ℤ) :=
  order.map (fun k => ((teams.getD k ("", 0)).1, (teams.getD k ("", 0)).2, pts k))

/-- Function `name_to_idx` lookup of `swiss.py` line 186 / `main.py` line 180:
the dict `{teams[i][0]: i for i in range(len(teams))}` followed by access.  With
duplicate names the dict keeps the last binding; every claim below assumes
pairwise-distinct names, where first and last occurrence coincide, so the lookup
is modelled as the index of the first occurrence. -/
def name_to_idx (teams : List (String × ℤ)) (name : String) : ℕ :=
  teams.findIdx (fun t => decide (t.1 = name))

/-- Function `make_pots_by_elo(teams)` of `swiss.py` lines 139-160:
`sorted(teams, key=lambda x: x[1], reverse=True)` (stable, hence
`insertionSort` with the non-strict descending relation) sliced `[0:9]`,
`[9:18]`, `[18:27]`, `[27:36]`. -/
def make_pots_by_elo (teams : List (String × ℤ)) : List (List (String × ℤ)) :=
  let ts := List.insertionSort (fun a b : String × ℤ => b.2 ≤ a.2) teams
  [ts.take 9, (ts.drop 9).take 9, (ts.drop 18).take 9, (ts.drop 27).take 9]

/-- Pot construction of `main.py` lines 133-157: `np.argsort([-elo ...])` then
slicing.  The argsort result is the parameter `order` (NumPy's default kind is
documented as unstable, so only "some rating-descending permutation" is known). -/
def make_pots_main (teams : List (String × ℤ)) (order : List ℕ) : List (List (String × ℤ)) :=
  let ts := order.map (fun k => teams.getD k ("", 0))
  [ts.take 9, (ts.drop 9).take 9, (ts.drop 18).take 9, (ts.drop 27).take 9]

/-- Index form of the pots: the per-pot `name_to_idx[name_j]` mapping of
`swiss.py` lines 194-195, applied pot-wise up front. -/
def potsToIdx (teams : List (String × ℤ)) (pots : List (List (String × ℤ))) :
    List (List ℕ) :=
  pots.map (fun pot => pot.map (fun t => name_to_idx teams t.1))

/-- Model of `rng.choice(candidates, size=2, replace=False)` (`swiss.py` line 199):
the oracle pair `t` selects two distinct positions of `c`; as in NumPy the call
fails iff the candidate list has fewer than 2 elements. -/
def drawTwo (c : List ℕ) (t : ℕ × ℕ) : Option (ℕ × ℕ) :=
  if 2 ≤ c.length then
    let p1 := t.1 % c.length
    let q := t.2 % (c.length - 1)
    let p2 := if q < p1 then q else q + 1
    some (c.getD p1 0, c.getD p2 0)
  else none

/-- Per-team opponent draw of `simulate_swiss_league_phase`, `swiss.py`
lines 190-201: for each pot in turn, build the candidate list
(`j != i and j not in opponents`) and draw two distinct candidates.  `pick p`
is the choice oracle for the `p`-th pot; the opponent set is kept as an
insertion-ordered list. -/
def drawFromPots (i : ℕ) (pick : ℕ → ℕ × ℕ) :
    List (List ℕ) → ℕ → List ℕ → Option (List ℕ)
  | [], _, opps => some opps
  | pot :: rest, p, opps =>
    match drawTwo (pot.filter (fun j => decide (j ≠ i ∧ j ∉ opps))) (pick p) with
    | none => none
    | some (j1, j2) => drawFromPots i pick rest (p + 1) (opps ++ [j1, j2])

/-- Trace of the successive candidate lists built by `drawFromPots` (the lists
`candidates` of `swiss.py` lines 193-197), for stating properties about them. -/
def candLists (i : ℕ) (pick : ℕ → ℕ × ℕ) :
    List (List ℕ) → ℕ → List ℕ → List (List ℕ)
  | [], _, _ => []
  | pot :: rest, p, opps =>
    let cands := pot.filter (fun j => decide (j ≠ i ∧ j ∉ opps))
    cands :: (match drawTwo cands (pick p) with
      | none => []
      | some (j1, j2) => candLists i pick rest (p + 1) (opps ++ [j1, j2]))

/-- Match loop of `simulate_swiss_league_phase`, `swiss.py` lines 204-207: team
`i` (rating `ei`) plays each drawn opponent once and accumulates only its own
points; `k` indexes the per-team uniform draw stream. -/
noncomputable def teamPoints (teams : List (String × ℤ)) (ei : ℤ) :
    List ℕ → (ℕ → ℝ) → ℕ → Option ℤ
  | [], _, _ => some 0
  | j :: rest, rs, k =>
    match teams.get? j with
    | some tj => (teamPoints teams ei rest rs (k + 1)).map
        (fun s => (simulate_match ei tj.2 (rs k)).1 + s)
    | none => none

/-- Per-team loop of `simulate_swiss_league_phase` (`swiss.py` lines 188-207,
`main.py` lines 182-200), shared by the two textually identical simulators:
for each team index, draw the 8 opponents pot by pot, then simulate the 8
matches crediting only that team. -/
noncomputable def swissPhaseCore (teams : List (String × ℤ)) (potsI : List (List ℕ))
    (pick : ℕ → ℕ → ℕ × ℕ) (rsM : ℕ → ℕ → ℝ) : List ℕ → Option (List ℤ)
  | [] => some []
  | i :: rest =>
    match teams.get? i with
    | none => none
    | some ti =>
      match drawFromPots i (pick i) potsI 0 [] with
      | none => none
      | some opps =>
        match teamPoints teams ti.2 opps (rsM i) 0 with
        | none => none
        | some pi =>
          match swissPhaseCore teams potsI pick rsM rest with
          | none => none
          | some tail => some (pi :: tail)

/-- Function `simulate_swiss_league_phase(teams)` of `swiss.py` lines 163-212. -/
noncomputable def simulate_swiss_league_phase (teams : List (String × ℤ))
    (pick : ℕ → ℕ → ℕ × ℕ) (rsM : ℕ → ℕ → ℝ) : Option (List ℤ) :=
  swissPhaseCore teams (potsToIdx teams (make_pots_by_elo teams)) pick rsM
    (List.range teams.length)

/-- Function `simulate_swiss_league_phase(teams)` of `main.py` lines 160-202; the
body is textually identical to the `swiss.py` copy except that the pots come
from the `np.argsort`-based `make_pots_by_elo` of `main.py` (parameter `order`). -/
noncomputable def simulate_swiss_league_phase_main (teams : List (String × ℤ))
    (order : List ℕ) (pick : ℕ → ℕ → ℕ × ℕ) (rsM : ℕ → ℕ → ℝ) : Option (List ℤ) :=
  swissPhaseCore teams (potsToIdx teams (make_pots_main teams order)) pick rsM
    (List.range teams.length)

/-- Opponent-draw phase of the Swiss simulator in isolation: the part of
`simulate_swiss_league_phase` that can fail by sampling exhaustion. -/
def swissDrawPhase (teams : List (String × ℤ)) (pick : ℕ → ℕ → ℕ × ℕ) :
    Option (List (List ℕ)) :=
  (List.range teams.length).foldr
    (fun i acc =>
      match drawFromPots i (pick i) (potsToIdx teams (make_pots_by_elo teams)) 0 [], acc with
      | some opps, some rest => some (opps :: rest)
      | _, _ => none)
    (some [])

/-- Concrete 36-team pool with pairwise-distinct names and pairwise-distinct
ratings in descending order (used to witness the Swiss-format theorems). -/
def teamsA : List (String × ℤ) :=
  [("T1", 2100), ("T2", 2099), ("T3", 2098), ("T4", 2097), ("T5", 2096), ("T6", 2095),
   ("T7", 2094), ("T8", 2093), ("T9", 2092), ("T10", 2091), ("T11", 2090), ("T12", 2089),
   ("T13", 2088), ("T14", 2087), ("T15", 2086), ("T16", 2085), ("T17", 2084), ("T18", 2083),
   ("T19", 2082), ("T20", 2081), ("T21", 2080), ("T22", 2079), ("T23", 2078), ("T24", 2077),
   ("T25", 2076), ("T26", 2075), ("T27", 2074), ("T28", 2073), ("T29", 2072), ("T30", 2071),
   ("T31", 2070), ("T32", 2069), ("T33", 2068), ("T34", 2067), ("T35", 2066), ("T36", 2065)]

/-- Concrete 36-team pool identical to `teamsA` except that the first two teams
share the same rating (used for the tied-ratings counterexample). -/
def teamsB : List (String × ℤ) :=
  [("T1", 2100), ("T2", 2100), ("T3", 2098), ("T4", 2097), ("T5", 2096), ("T6", 2095),
   ("T7", 2094), ("T8", 2093), ("T9", 2092), ("T10", 2091), ("T11", 2090), ("T12", 2089),
   ("T13", 2088), ("T14", 2087), ("T15", 2086), ("T16", 2085), ("T17", 2084), ("T18", 2083),
   ("T19", 2082), ("T20", 2081), ("T21", 2080), ("T22", 2079), ("T23", 2078), ("T24", 2077),
   ("T25", 2076), ("T26", 2075), ("T27", 2074), ("T28", 2073), ("T29", 2072), ("T30", 2071),
   ("T31", 2070), ("T32", 2069), ("T33", 2068), ("T34", 2067), ("T35", 2066), ("T36", 2065)]

/-- Concrete 35-team pool (one team short of the required 36) with
pairwise-distinct names and ratings. -/
def teamsC : List (String × ℤ) :=
  [("T1", 2100), ("T2", 2099), ("T3", 2098), ("T4", 2097), ("T5", 2096), ("T6", 2095),
   ("T7", 2094), ("T8", 2093), ("T9", 2092), ("T10", 2091), ("T11", 2090), ("T12", 2089),
   ("T13", 2088), ("T14", 2087), ("T15", 2086), ("T16", 2085), ("T17", 2084), ("T18", 2083),
   ("T19", 2082), ("T20", 2081), ("T21", 2080), ("T22", 2079), ("T23", 2078), ("T24", 2077),
   ("T25", 2076), ("T26", 2075), ("T27", 2074), ("T28", 2073), ("T29", 2072), ("T30", 2071),
   ("T31", 2070), ("T32", 2069), ("T33", 2068), ("T34", 2067), ("T35", 2066)]

/-- A rating-descending permutation of `0..35` for `teamsB` that differs from
the stable order: the two equally-rated teams are swapped.  NumPy's unstable
default argsort is permitted to return this order. -/
def orderB : List ℕ :=
  [1, 0, 2, 3, 4, 5, 6, 7, 8, 9, 10, 11, 12, 13, 14, 15, 16, 17, 18, 19, 20, 21,
   22, 23, 24, 25, 26, 27, 28, 29, 30, 31, 32, 33, 34, 35]

/-! Theorems. -/

/-- Positivity of the logistic win probability (denominator is `1 +` a positive
real power of 10). -/
lemma win_probability_pos (a b : ℤ) : 0 < win_probability a b := by
  unfold win_probability
  positivity

/-- C8: for all rating pairs, `win_probability(ra, rb) + win_probability(rb, ra) = 1`,
and `win_probability(r, r) = 0.5` (exact identities in the real-number model of
the float computation). -/
theorem win_probability_complement_and_half (ra rb r : ℤ) :
    win_probability ra rb + win_probability rb ra = 1 ∧ win_probability r r = 1 / 2 := by
  constructor
  · unfold win_probability
    have h10 : (0:ℝ) < 10 := by norm_num
    have hcast : ((rb - ra : ℤ) : ℝ) = -((ra - rb : ℤ) : ℝ) := by push_cast; ring
    rw [hcast]
    have hxp : -(-((ra - rb : ℤ) : ℝ)) / 400 = ((ra - rb : ℤ) : ℝ) / 400 := by ring
    have hxn : -((ra - rb : ℤ) : ℝ) / 400 = -(((ra - rb : ℤ) : ℝ) / 400) := by ring
    rw [hxp, hxn, Real.rpow_neg h10.le]
    set y := (10 : ℝ) ^ (((ra - rb : ℤ) : ℝ) / 400) with hy
    have hypos : 0 < y := Real.rpow_pos_of_pos h10 _
    have hy0 : y ≠ 0 := ne_of_gt hypos
    have h1y : (1 : ℝ) + y ≠ 0 := by positivity
    have h1yi : (1 : ℝ) + y⁻¹ ≠ 0 := by positivity
    field_simp
    ring
  · unfold win_probability
    have hc : ((r - r : ℤ) : ℝ) = 0 := by push_cast; ring
    rw [hc, show -(0:ℝ) / 400 = 0 by ring, Real.rpow_zero]
    norm_num

/-- C7: `simulate_match` always returns one of `(1,1)`, `(3,0)`, `(0,3)`, so the
point pair awarded for any fixture sums to 2 (draw) or 3 (win/loss) and never
anything else. -/
theorem simulate_match_point_totals (a b : ℤ) (u : ℝ) :
    (simulate_match a b u = (1, 1) ∨ simulate_match a b u = (3, 0) ∨
      simulate_match a b u = (0, 3)) ∧
    ((simulate_match a b u).1 + (simulate_match a b u).2 = 2 ∨
      (simulate_match a b u).1 + (simulate_match a b u).2 = 3) := by
  simp only [simulate_match]
  split_ifs <;> simp

/-- C1: for every rating pair and every uniform draw `u ∈ [0,1)`, `simulate_match`
returns `(1,1)` exactly on the band `[0, 0.25)` (evaluated first, independent of
the ratings), `(3,0)` exactly on `[0.25, 0.25 + 0.75 * win_probability)`, and
`(0,3)` on the remainder. -/
theorem simulate_match_band_structure (a b : ℤ) (u : ℝ) (h0 : 0 ≤ u) (h1 : u < 1) :
    (simulate_match a b u = (1, 1) ↔ u < DRAW_PROB) ∧
    (simulate_match a b u = (3, 0) ↔
      DRAW_PROB ≤ u ∧ u < DRAW_PROB + (1 - DRAW_PROB) * win_probability a b) ∧
    (simulate_match a b u = (0, 3) ↔
      DRAW_PROB + (1 - DRAW_PROB) * win_probability a b ≤ u) := by
  have hadj : 0 ≤ (1 - DRAW_PROB) * win_probability a b :=
    mul_nonneg (by norm_num [DRAW_PROB]) (win_probability_pos a b).le
  simp only [simulate_match]
  split_ifs with hd hw
  · refine ⟨iff_of_true rfl hd, iff_of_false (by decide) ?_, iff_of_false (by decide) ?_⟩
    · rintro ⟨hle, _⟩
      exact absurd hd (not_lt.mpr hle)
    · intro hle
      linarith
  · refine ⟨iff_of_false (by decide) (fun hlt => hd hlt),
      iff_of_true rfl ⟨not_lt.mp hd, hw⟩, iff_of_false (by decide) ?_⟩
    intro hle
    exact absurd hw (not_lt.mpr hle)
  · refine ⟨iff_of_false (by decide) (fun hlt => hd hlt), iff_of_false (by decide) ?_,
      iff_of_true rfl (not_lt.mp hw)⟩
    rintro ⟨_, hlt⟩
    exact hw hlt

/-- Witness for C1 at the concrete draw `u = 1/2` and equal ratings. -/
theorem simulate_match_band_structure_witness :
    ((0:ℝ) ≤ 1 / 2) ∧ ((1:ℝ) / 2 < 1) ∧
    ((simulate_match 1500 1500 (1 / 2) = (1, 1) ↔ (1:ℝ) / 2 < DRAW_PROB) ∧
     (simulate_match 1500 1500 (1 / 2) = (3, 0) ↔
       DRAW_PROB ≤ (1:ℝ) / 2 ∧
         (1:ℝ) / 2 < DRAW_PROB + (1 - DRAW_PROB) * win_probability 1500 1500) ∧
     (simulate_match 1500 1500 (1 / 2) = (0, 3) ↔
       DRAW_PROB + (1 - DRAW_PROB) * win_probability 1500 1500 ≤ (1:ℝ) / 2)) :=
  ⟨by norm_num, by norm_num,
    simulate_match_band_structure 1500 1500 (1 / 2) (by norm_num) (by norm_num)⟩

/-- Folding a counting step over a list counts the elements satisfying the
step's test. -/
lemma foldl_count_general {α : Type} (f : ℕ → α → ℕ) (g : α → Bool)
    (hf : ∀ n a, f n a = n + (if g a then 1 else 0)) :
    ∀ (l : List α) (n : ℕ), l.foldl f n = n + l.countP g := by
  intro l
  induction l with
  | nil => intro n; simp
  | cons a l ih =>
    intro n
    simp only [List.foldl_cons, List.countP_cons, hf]
    rw [ih]
    by_cases h : g a <;> simp [h] <;> omega

/-- C9: `count_weak` counts exactly the listed teams that are present in the
rating map with a rating strictly below the threshold; a team absent from the
map contributes nothing (and, the function being total, never fails the run). -/
theorem count_weak_characterization (ts : List String) (m : List (String × ℚ)) :
    count_weak ts m = ts.countP
      (fun t =>
        match m.lookup t with
        | some v => decide (v < WEAK_ELO_THRESHOLD)
        | none => false) ∧
    ∀ t : String, m.lookup t = none → count_weak (t :: ts) m = count_weak ts m := by
  have key : ∀ ts' : List String, count_weak ts' m = ts'.countP
      (fun t =>
        match m.lookup t with
        | some v => decide (v < WEAK_ELO_THRESHOLD)
        | none => false) := by
    intro ts'
    have hf : ∀ (n : ℕ) (a : String),
        (fun weak t =>
          match m.lookup t with
          | some v => if v < WEAK_ELO_THRESHOLD then weak + 1 else weak
          | none => weak) n a
        = n + (if (fun t =>
            match m.lookup t with
            | some v => decide (v < WEAK_ELO_THRESHOLD)
            | none => false) a then 1 else 0) := by
      intro n a
      cases hm : m.lookup a with
      | none => simp [hm]
      | some v => by_cases hv : v < WEAK_ELO_THRESHOLD <;> simp [hm, hv]
    have hfold := foldl_count_general _ _ hf ts' 0
    unfold count_weak
    rw [hfold]
    simp
  refine ⟨key ts, fun t ht => ?_⟩
  rw [key, key, List.countP_cons, ht]
  simp

/-- Witness for C9: a listed team absent from the map is skipped without failure. -/
theorem count_weak_characterization_witness :
    count_weak ["X", "A", "B"] [("A", 1400), ("B", 1600)] = 1 ∧
    count_weak ("X" :: ["X", "A", "B"]) [("A", 1400), ("B", 1600)] =
      count_weak ["X", "A", "B"] [("A", 1400), ("B", 1600)] :=
  ⟨(count_weak_characterization (["X", "A", "B"]) ([("A", 1400), ("B", 1600)])).1.trans
      (by decide),
   (count_weak_characterization (["X", "A", "B"]) ([("A", 1400), ("B", 1600)])).2
      ("X") (by decide)⟩

/-- Ordered insertion with the descending-key relation inserts the new element
in front of every element of its own key class and skips only strictly larger
keys, so filtering any key class commutes with the insertion. -/
lemma filter_key_orderedInsert (pts : ℕ → ℤ) (v : ℤ) (a : ℕ) :
    ∀ l : List ℕ,
      (List.orderedInsert (fun x y => pts y ≤ pts x) a l).filter
          (fun k => decide (pts k = v)) =
        if pts a = v then a :: l.filter (fun k => decide (pts k = v))
        else l.filter (fun k => decide (pts k = v)) := by
  intro l
  induction l with
  | nil => by_cases hav : pts a = v <;> simp [List.orderedInsert, List.filter_cons, hav]
  | cons b l ih =>
    simp only [List.orderedInsert]
    by_cases hab : pts b ≤ pts a
    · rw [if_pos hab]
      by_cases hav : pts a = v <;> by_cases hbv : pts b = v <;>
        simp [List.filter_cons, hav, hbv]
    · rw [if_neg hab]
      by_cases hav : pts a = v
      · have hbv : ¬pts b = v := fun hh => hab (le_of_eq (hh.trans hav.symm))
        simp [List.filter_cons, hbv, ih, hav]
      · by_cases hbv : pts b = v <;> simp [List.filter_cons, hbv, ih, hav]

/-- Stability of the group ranking: filtering any fixed points value out of the
sorted list returns those teams in their original relative order. -/
lemma filter_key_insertionSort (pts : ℕ → ℤ) (v : ℤ) :
    ∀ group : List ℕ,
      (List.insertionSort (fun x y => pts y ≤ pts x) group).filter
          (fun k => decide (pts k = v)) =
        group.filter (fun k => decide (pts k = v))
  | [] => by simp
  | a :: l => by
    simp only [List.insertionSort]
    rw [filter_key_orderedInsert, filter_key_insertionSort pts v l]
    by_cases hav : pts a = v <;> simp [List.filter_cons, hav]

/-- C5 counterexample: with all points equal and the (shuffled) group array
`[1, 0, 2, 3]`, the code's ranking keeps the group-array order `[1, 0, 2, 3]`,
while a points-descending sort breaking ties by original numeric index order
would give `[0, 1, 2, 3]` — the claimed tie-break rule does not hold. -/
theorem baseline_tiebreak_counterexample :
    rank_group (fun _ => (0:ℤ)) [1, 0, 2, 3] = [1, 0, 2, 3] ∧
    rank_by_index (fun _ => (0:ℤ)) [1, 0, 2, 3] = [0, 1, 2, 3] ∧
    rank_group (fun _ => (0:ℤ)) [1, 0, 2, 3] ≠ rank_by_index (fun _ => (0:ℤ)) [1, 0, 2, 3] :=
  ⟨by decide, by decide, by decide⟩

/-- C5 (amended): the baseline group ranking is a permutation of the group
array, sorted by points descending, and equal-points teams keep their relative
order from the group array (stable sort over the group list, not numeric index
order); the Swiss ranking lists teams in points-descending order along any
points-descending argsort permutation (NumPy's unstable argsort guarantees no
particular tie order). -/
theorem season_ranking_properties (pts : ℕ → ℤ) (group : List ℕ)
    (teams : List (String × ℤ)) (order : List ℕ) (v : ℤ)
    (hsort : (order.map pts).Sorted (· ≥ ·)) :
    (rank_group pts group).Perm group ∧
    ((rank_group pts group).map pts).Sorted (· ≥ ·) ∧
    ((rank_group pts group).filter (fun k => decide (pts k = v)) =
      group.filter (fun k => decide (pts k = v))) ∧
    ((swiss_ranked teams pts order).map (fun t => t.2.2)).Sorted (· ≥ ·) := by
  refine ⟨List.perm_insertionSort _ group, ?_, filter_key_insertionSort pts v group, ?_⟩
  · have hs : List.Sorted (fun a b => pts b ≤ pts a)
        (List.insertionSort (fun a b => pts b ≤ pts a) group) := by
      haveI : IsTotal ℕ (fun a b => pts b ≤ pts a) := ⟨fun a b => le_total (pts b) (pts a)⟩
      haveI : IsTrans ℕ (fun a b => pts b ≤ pts a) := ⟨fun a b c hab hbc => le_trans hbc hab⟩
      exact List.sorted_insertionSort _ group
    rw [rank_group, List.Sorted, List.pairwise_map]
    exact hs
  · rw [swiss_ranked, List.map_map]
    exact hsort

/-- Witness for C5's amended theorem at a concrete all-equal points function. -/
theorem season_ranking_properties_witness :
    (rank_group (fun _ => (0:ℤ)) [1, 0]).Perm [1, 0] ∧
    ((rank_group (fun _ => (0:ℤ)) [1, 0]).map (fun _ => (0:ℤ))).Sorted (· ≥ ·) ∧
    ((rank_group (fun _ => (0:ℤ)) [1, 0]).filter (fun k => decide ((fun _ => (0:ℤ)) k = 0)) =
      ([1, 0] : List ℕ).filter (fun k => decide ((fun _ => (0:ℤ)) k = 0))) ∧
    ((swiss_ranked ([]) (fun _ => (0:ℤ)) ([])).map (fun t => t.2.2)).Sorted (· ≥ ·) :=
  season_ranking_properties (fun _ => (0:ℤ)) [1, 0] ([]) ([]) 0 (by simp)

/-- Concatenating the 4-element slices of a list taken at offsets
`0, 4, ..., 4(n-1)` yields its first `4n` elements. -/
lemma range_slices_flatten (l : List ℕ) :
    ∀ n : ℕ, ((List.range n).map (fun g => (l.drop (4 * g)).take 4)).flatten = l.take (4 * n)
  | 0 => by simp
  | n + 1 => by
    rw [List.range_succ, List.map_append, List.flatten_append, range_slices_flatten l n]
    simp only [List.map_cons, List.map_nil, List.flatten_cons, List.flatten_nil,
      List.append_nil]
    rw [show 4 * (n + 1) = 4 * n + 4 by ring, List.take_add]

/-- C6: whenever `indices` is a shuffle of `0..31`, the group stage produces
exactly 8 groups of exactly 4 indices whose concatenation is a permutation of
`0..31` — every team index lies in exactly one group. -/
theorem group_stage_partition (teams : List (String × ℤ)) (indices : List ℕ) (rs : ℕ → ℝ)
    (hperm : indices.Perm (List.range 32)) :
    (simulate_group_stage teams indices rs).1.length = 8 ∧
    ((simulate_group_stage teams indices rs).1.all (fun g => decide (g.length = 4)) = true) ∧
    (simulate_group_stage teams indices rs).1.flatten.Perm (List.range 32) := by
  have hlen : indices.length = 32 := by simpa using hperm.length_eq
  have hfst : (simulate_group_stage teams indices rs).1 = make_groups indices := rfl
  rw [hfst]
  have hflat : (make_groups indices).flatten = indices := by
    unfold make_groups
    rw [range_slices_flatten indices 8]
    exact List.take_of_length_le (by omega)
  refine ⟨by simp [make_groups], ?_, by rw [hflat]; exact hperm⟩
  rw [List.all_eq_true]
  intro g hg
  unfold make_groups at hg
  simp only [List.mem_map, List.mem_range] at hg
  obtain ⟨gi, hgi, rfl⟩ := hg
  simp only [decide_eq_true_eq, List.length_take, List.length_drop, hlen]
  omega

/-- Witness for C6 at the identity shuffle. -/
theorem group_stage_partition_witness :
    (simulate_group_stage ([]) (List.range 32) (fun _ => 0)).1.length = 8 ∧
    ((simulate_group_stage ([]) (List.range 32) (fun _ => 0)).1.all
      (fun g => decide (g.length = 4)) = true) ∧
    (simulate_group_stage ([]) (List.range 32) (fun _ => 0)).1.flatten.Perm (List.range 32) :=
  group_stage_partition ([]) (List.range 32) (fun _ => 0) (List.Perm.refl _)

/-- Specification of `drawTwo`: on a candidate list with at least 2 elements it
returns two members, distinct whenever the list has no duplicates. -/
lemma drawTwo_spec (c : List ℕ) (t : ℕ × ℕ) (h2 : 2 ≤ c.length) :
    ∃ a b : ℕ, drawTwo c t = some (a, b) ∧ a ∈ c ∧ b ∈ c ∧ (c.Nodup → a ≠ b) := by
  have hpos : 0 < c.length := by omega
  have hp1 : t.1 % c.length < c.length := Nat.mod_lt _ hpos
  have hq : t.2 % (c.length - 1) < c.length - 1 := Nat.mod_lt _ (by omega)
  have hp2 : (if t.2 % (c.length - 1) < t.1 % c.length then t.2 % (c.length - 1)
      else t.2 % (c.length - 1) + 1) < c.length := by split <;> omega
  have hne : (if t.2 % (c.length - 1) < t.1 % c.length then t.2 % (c.length - 1)
      else t.2 % (c.length - 1) + 1) ≠ t.1 % c.length := by split <;> omega
  refine ⟨c.getD (t.1 % c.length) 0,
    c.getD (if t.2 % (c.length - 1) < t.1 % c.length then t.2 % (c.length - 1)
      else t.2 % (c.length - 1) + 1) 0, ?_, ?_, ?_, ?_⟩
  · simp only [drawTwo, if_pos h2]
  · rw [List.getD_eq_getElem c 0 hp1]
    exact List.getElem_mem hp1
  · rw [List.getD_eq_getElem c 0 hp2]
    exact List.getElem_mem hp2
  · intro hnd heq
    rw [List.getD_eq_getElem c 0 hp1, List.getD_eq_getElem c 0 hp2] at heq
    exact hne ((List.Nodup.getElem_inj_iff hnd).mp heq.symm)

/-- Filtering one element's complement out of a duplicate-free list removes at
most one element. -/
lemma length_filter_ne (i : ℕ) :
    ∀ l : List ℕ, l.Nodup → l.length - 1 ≤ (l.filter (fun j => decide (j ≠ i))).length
  | [], _ => by simp
  | a :: l, h => by
    rw [List.filter_cons]
    by_cases ha : a = i
    · subst ha
      have hnotin : a ∉ l := (List.nodup_cons.mp h).1
      have hfl : l.filter (fun j => decide (j ≠ a)) = l := by
        apply List.filter_eq_self.mpr
        intro x hx
        simp only [decide_eq_true_eq]
        exact fun hxa => hnotin (hxa ▸ hx)
      rw [if_neg (by simp), hfl]
      simp
    · have hrec := length_filter_ne i l (List.nodup_cons.mp h).2
      rw [if_pos (by simpa using ha)]
      simp only [List.length_cons]
      omega

/-- With pairwise-distinct names, the dict lookup finds each team at its own
position. -/
lemma findIdx_names :
    ∀ (l : List (String × ℤ)), (l.map Prod.fst).Nodup →
      ∀ (k : ℕ) (hk : k < l.length),
        l.findIdx (fun t => decide (t.1 = (l.get ⟨k, hk⟩).1)) = k
  | [], _, k, hk => by simp at hk
  | a :: l, hn, 0, hk => by simp [List.findIdx_cons]
  | a :: l, hn, k + 1, hk => by
    have hk' : k < l.length := by simpa using hk
    rw [List.map_cons] at hn
    have hmem : (l.get ⟨k, hk'⟩).1 ∈ l.map Prod.fst :=
      List.mem_map.mpr ⟨l.get ⟨k, hk'⟩, l.get_mem .., rfl⟩
    have hhd : a.1 ∉ l.map Prod.fst := (List.nodup_cons.mp hn).1
    have hane : ¬(a.1 = (l.get ⟨k, hk'⟩).1) := fun h => hhd (h ▸ hmem)
    have htl : (l.map Prod.fst).Nodup := (List.nodup_cons.mp hn).2
    show (a :: l).findIdx (fun t => decide (t.1 = (l.get ⟨k, hk'⟩).1)) = k + 1
    rw [List.findIdx_cons]
    rw [show decide (a.1 = (l.get ⟨k, hk'⟩).1) = false from decide_eq_false hane]
    rw [Bool.cond_false]
    rw [findIdx_names l htl k hk']

/-- With pairwise-distinct names, mapping every team to its dict index recovers
the index sequence `0..n-1`. -/
lemma map_name_to_idx (teams : List (String × ℤ)) (hn : (teams.map Prod.fst).Nodup) :
    teams.map (fun t => name_to_idx teams t.1) = List.range teams.length := by
  apply List.ext_get
  · simp
  · intro n h1 h2
    rw [List.get_map, List.get_range]
    exact findIdx_names teams hn n (by simpa using h1)

/-- The four pot slices concatenate back to the rating-sorted team list. -/
lemma make_pots_flatten (teams : List (String × ℤ)) (h36 : teams.length ≤ 36) :
    (make_pots_by_elo teams).flatten =
      List.insertionSort (fun a b : String × ℤ => b.2 ≤ a.2) teams := by
  have hlen : (List.insertionSort (fun a b : String × ℤ => b.2 ≤ a.2) teams).length ≤ 36 := by
    rw [(List.perm_insertionSort _ teams).length_eq]
    exact h36
  simp only [make_pots_by_elo, List.flatten_cons, List.flatten_nil, List.append_nil]
  set ts := List.insertionSort (fun a b : String × ℤ => b.2 ≤ a.2) teams with hts
  have h27 : (ts.drop 27).take 9 = ts.drop 27 :=
    List.take_of_length_le (by rw [List.length_drop]; omega)
  have e3 : (ts.drop 18).take 9 ++ (ts.drop 27).take 9 = ts.drop 18 := by
    rw [h27, show ts.drop 27 = (ts.drop 18).drop 9 by rw [List.drop_drop]]
    exact List.take_append_drop ..
  have e2 : (ts.drop 9).take 9 ++ ((ts.drop 18).take 9 ++ (ts.drop 27).take 9) = ts.drop 9 := by
    rw [e3, show ts.drop 18 = (ts.drop 9).drop 9 by rw [List.drop_drop]]
    exact List.take_append_drop ..
  rw [e2]
  exact List.take_append_drop ..

/-- With at most 36 distinct-name teams, the pot indices enumerate each team
index exactly once. -/
lemma potsIdx_flatten_perm (teams : List (String × ℤ)) (h36 : teams.length ≤ 36)
    (hn : (teams.map Prod.fst).Nodup) :
    (potsToIdx teams (make_pots_by_elo teams)).flatten.Perm (List.range teams.length) := by
  have hmapflat : (potsToIdx teams (make_pots_by_elo teams)).flatten
      = (make_pots_by_elo teams).flatten.map (fun t => name_to_idx teams t.1) := by
    rw [potsToIdx, List.map_flatten]
  rw [hmapflat, make_pots_flatten teams h36]
  have hperm : (List.insertionSort (fun a b : String × ℤ => b.2 ≤ a.2) teams).map
      (fun t => name_to_idx teams t.1) |>.Perm
        (teams.map (fun t => name_to_idx teams t.1)) :=
    (List.perm_insertionSort _ teams).map _
  rw [map_name_to_idx teams hn] at hperm
  exact hperm

/-- With exactly 36 teams every pot has exactly 9 members. -/
lemma potsIdx_lengths (teams : List (String × ℤ)) (h36 : teams.length = 36) :
    ∀ pot ∈ potsToIdx teams (make_pots_by_elo teams), pot.length = 9 := by
  intro pot hpot
  have hlen : (List.insertionSort (fun a b : String × ℤ => b.2 ≤ a.2) teams).length = 36 := by
    rw [(List.perm_insertionSort _ teams).length_eq, h36]
  simp only [potsToIdx, make_pots_by_elo, List.mem_map, List.mem_cons,
    List.not_mem_nil, or_false] at hpot
  obtain ⟨potT, hpotT, rfl⟩ := hpot
  rw [List.length_map]
  rcases hpotT with rfl | rfl | rfl | rfl <;>
    simp [List.length_take, List.length_drop, hlen]

/-- Invariant of the per-team opponent draw: as long as the already-selected
opponents and the remaining pots together contain no duplicates and every
remaining pot has at least 3 members, every candidate list loses at most one
element from its pot, the draw always succeeds, and the result extends the
selection by exactly two members of each remaining pot, all distinct and
different from the drawing team. -/
lemma drawFromPots_invariant (i : ℕ) (pick : ℕ → ℕ × ℕ) :
    ∀ (ps : List (List ℕ)) (p : ℕ) (opps : List ℕ),
      (opps ++ ps.flatten).Nodup →
      (∀ pot ∈ ps, 3 ≤ pot.length) →
      (∀ c ∈ candLists i pick ps p opps, ∃ pot ∈ ps, pot.length - 1 ≤ c.length) ∧
      ∃ res, drawFromPots i pick ps p opps = some res ∧
        res.Nodup ∧
        res.length = opps.length + 2 * ps.length ∧
        (∀ x ∈ res, x ∈ opps ∨ (x ∈ ps.flatten ∧ x ≠ i)) ∧
        (∀ s : List ℕ, (∀ x ∈ s, x ∉ ps.flatten) →
          res.filter (fun x => decide (x ∈ s)) = opps.filter (fun x => decide (x ∈ s))) ∧
        (∀ pot ∈ ps, (res.filter (fun x => decide (x ∈ pot))).length =
          (opps.filter (fun x => decide (x ∈ pot))).length + 2) := by
  intro ps
  induction ps with
  | nil =>
    intro p opps H _
    refine ⟨by simp [candLists], opps, by simp [drawFromPots], by simpa using H,
      by simp, fun x hx => Or.inl hx, fun s _ => rfl, by simp⟩
  | cons pot rest ih =>
    intro p opps H hlen
    rw [List.flatten_cons, ← List.append_assoc] at H
    have Hsplit := List.nodup_append.mp H
    have Hsplit2 := List.nodup_append.mp Hsplit.1
    have hopps : opps.Nodup := Hsplit2.1
    have hpot : pot.Nodup := Hsplit2.2.1
    have hdisj_opps_pot : opps.Disjoint pot := Hsplit2.2.2
    have hrestnd : rest.flatten.Nodup := Hsplit.2.1
    have hdisj_oppspot_rest : (opps ++ pot).Disjoint rest.flatten := Hsplit.2.2
    have hdisj_opps_rest : opps.Disjoint rest.flatten :=
      fun x hx => hdisj_oppspot_rest (List.mem_append_left _ hx)
    have hdisj_pot_rest : pot.Disjoint rest.flatten :=
      fun x hx => hdisj_oppspot_rest (List.mem_append_right _ hx)
    have hcands_eq : pot.filter (fun j => decide (j ≠ i ∧ j ∉ opps)) =
        pot.filter (fun j => decide (j ≠ i)) := by
      apply List.filter_congr
      intro j hj
      have hjno : j ∉ opps := fun hjin => hdisj_opps_pot hjin hj
      apply decide_eq_decide.mpr
      exact and_iff_left hjno
    have hclen : pot.length - 1 ≤
        (pot.filter (fun j => decide (j ≠ i ∧ j ∉ opps))).length := by
      rw [hcands_eq]
      exact length_filter_ne i pot hpot
    have hclen2 : 2 ≤ (pot.filter (fun j => decide (j ≠ i ∧ j ∉ opps))).length := by
      have := hlen pot (List.mem_cons_self ..)
      omega
    have hcnd : (pot.filter (fun j => decide (j ≠ i ∧ j ∉ opps))).Nodup := hpot.filter _
    obtain ⟨j1, j2, hdt, hj1c, hj2c, hne12⟩ :=
      drawTwo_spec (pot.filter (fun j => decide (j ≠ i ∧ j ∉ opps))) (pick p) hclen2
    have hne : j1 ≠ j2 := hne12 hcnd
    have hj1m := List.mem_filter.mp hj1c
    have hj2m := List.mem_filter.mp hj2c
    have hj1pot : j1 ∈ pot := hj1m.1
    have hj2pot : j2 ∈ pot := hj2m.1
    have hj1i : j1 ≠ i := (decide_eq_true_eq.mp hj1m.2).1
    have hj2i : j2 ≠ i := (decide_eq_true_eq.mp hj2m.2).1
    have hj1opps : j1 ∉ opps := (decide_eq_true_eq.mp hj1m.2).2
    have hj2opps : j2 ∉ opps := (decide_eq_true_eq.mp hj2m.2).2
    have hj1rest : j1 ∉ rest.flatten := fun hx => hdisj_pot_rest hj1pot hx
    have hj2rest : j2 ∉ rest.flatten := fun hx => hdisj_pot_rest hj2pot hx
    have H' : ((opps ++ [j1, j2]) ++ rest.flatten).Nodup := by
      apply List.nodup_append.mpr
      refine ⟨?_, hrestnd, ?_⟩
      · apply List.nodup_append.mpr
        refine ⟨hopps, by simp [hne], ?_⟩
        intro x hx hx2
        rcases List.mem_cons.mp hx2 with rfl | hx2
        · exact hj1opps hx
        · rcases List.mem_cons.mp hx2 with rfl | hx2
          · exact hj2opps hx
          · simp at hx2
      · intro x hx hx2
        rcases List.mem_append.mp hx with hx | hx
        · exact hdisj_opps_rest hx hx2
        · rcases List.mem_cons.mp hx with rfl | hx
          · exact hj1rest hx2
          · rcases List.mem_cons.mp hx with rfl | hx
            · exact hj2rest hx2
            · simp at hx
    obtain ⟨ihc, res, hres, hresnd, hreslen, hresmem, hressub, hrespots⟩ :=
      ih (p + 1) (opps ++ [j1, j2]) H' (fun pot' h => hlen pot' (List.mem_cons_of_mem _ h))
    constructor
    · -- candidate-list bounds
      intro c hc
      rw [show candLists i pick (pot :: rest) p opps =
          pot.filter (fun j => decide (j ≠ i ∧ j ∉ opps))
            :: candLists i pick rest (p + 1) (opps ++ [j1, j2]) by
        simp only [candLists]
        rw [hdt]] at hc
      rcases List.mem_cons.mp hc with rfl | hc
      · exact ⟨pot, List.mem_cons_self .., hclen⟩
      · obtain ⟨pot', hpot', hb⟩ := ihc c hc
        exact ⟨pot', List.mem_cons_of_mem _ hpot', hb⟩
    · refine ⟨res, ?_, hresnd, ?_, ?_, ?_, ?_⟩
      · show drawFromPots i pick (pot :: rest) p opps = some res
        simp only [drawFromPots]
        rw [hdt]
        exact hres
      · rw [hreslen]
        have hol : (opps ++ [j1, j2]).length = opps.length + 2 := by simp
        rw [hol]
        simp only [List.length_cons]
        omega
      · intro x hx
        have hmempot : ∀ y : ℕ, y ∈ pot → y ∈ (pot :: rest).flatten := fun y hy => by
          rw [List.flatten_cons]
          exact List.mem_append_left _ hy
        rcases hresmem x hx with hx' | ⟨hxf, hxi⟩
        · rcases List.mem_append.mp hx' with hx' | hx'
          · exact Or.inl hx'
          · rcases List.mem_cons.mp hx' with rfl | hx'
            · exact Or.inr ⟨hmempot _ hj1pot, hj1i⟩
            · rcases List.mem_cons.mp hx' with rfl | hx'
              · exact Or.inr ⟨hmempot _ hj2pot, hj2i⟩
              · simp at hx'
        · refine Or.inr ⟨?_, hxi⟩
          rw [List.flatten_cons]
          exact List.mem_append_right _ hxf
      · intro s hs
        have hs_rest : ∀ x ∈ s, x ∉ rest.flatten := by
          intro x hx hxr
          refine hs x hx ?_
          rw [List.flatten_cons]
          exact List.mem_append_right _ hxr
        have hj1s : j1 ∉ s := fun hin => hs j1 hin (by
          rw [List.flatten_cons]; exact List.mem_append_left _ hj1pot)
        have hj2s : j2 ∉ s := fun hin => hs j2 hin (by
          rw [List.flatten_cons]; exact List.mem_append_left _ hj2pot)
        rw [hressub s hs_rest, List.filter_append]
        rw [show ([j1, j2] : List ℕ).filter (fun x => decide (x ∈ s)) = [] by
          simp [List.filter_cons, hj1s, hj2s]]
        rw [List.append_nil]
      · intro pot₀ hpot₀
        rcases List.mem_cons.mp hpot₀ with rfl | hpot₀
        · have hdis : ∀ x ∈ pot₀, x ∉ rest.flatten := fun x hx hxr => hdisj_pot_rest hx hxr
          rw [hressub pot₀ hdis, List.filter_append]
          rw [show ([j1, j2] : List ℕ).filter (fun x => decide (x ∈ pot₀)) = [j1, j2] by
            simp [List.filter_cons, hj1pot, hj2pot]]
          simp
        · have hj1n : j1 ∉ pot₀ := fun hin =>
            hdisj_pot_rest hj1pot (List.mem_flatten.mpr ⟨pot₀, hpot₀, hin⟩)
          have hj2n : j2 ∉ pot₀ := fun hin =>
            hdisj_pot_rest hj2pot (List.mem_flatten.mpr ⟨pot₀, hpot₀, hin⟩)
          rw [hrespots pot₀ hpot₀, List.filter_append]
          rw [show ([j1, j2] : List ℕ).filter (fun x => decide (x ∈ pot₀)) = [] by
            simp [List.filter_cons, hj1n, hj2n]]
          rw [List.append_nil]

/-- C2: for every pool of exactly 36 teams with pairwise-distinct names, every
candidate list built during any team's opponent draw has at least 8 indices, and
the draw never exhausts a candidate list — the sampling-exhaustion failure is
unreachable. -/
theorem swiss_candidate_lists_never_exhausted (teams : List (String × ℤ))
    (pick : ℕ → ℕ × ℕ) (i : ℕ)
    (h36 : teams.length = 36) (hn : (teams.map Prod.fst).Nodup) :
    ((candLists i pick (potsToIdx teams (make_pots_by_elo teams)) 0 []).all
      (fun c => decide (8 ≤ c.length)) = true) ∧
    (drawFromPots i pick (potsToIdx teams (make_pots_by_elo teams)) 0 []).isSome := by
  have hperm := potsIdx_flatten_perm teams (le_of_eq h36) hn
  have hnd : (([] : List ℕ) ++ (potsToIdx teams (make_pots_by_elo teams)).flatten).Nodup := by
    rw [List.nil_append]
    exact hperm.nodup_iff.mpr (List.nodup_range _)
  have hlens := potsIdx_lengths teams h36
  have h3 : ∀ pot ∈ potsToIdx teams (make_pots_by_elo teams), 3 ≤ pot.length := by
    intro pot hp
    rw [hlens pot hp]
    omega
  obtain ⟨hcand, res, hres, -⟩ := drawFromPots_invariant i pick _ 0 [] hnd h3
  constructor
  · rw [List.all_eq_true]
    intro c hc
    obtain ⟨pot, hpot, hb⟩ := hcand c hc
    rw [hlens pot hpot] at hb
    exact decide_eq_true (by omega)
  · rw [hres]
    rfl

/-- Witness for C2 at the concrete pool `teamsA`, team 0, constant pick oracle. -/
theorem swiss_candidate_lists_never_exhausted_witness :
    teamsA.length = 36 ∧
    (teamsA.map Prod.fst).Nodup ∧
    ((candLists 0 (fun _ => (0, 0)) (potsToIdx teamsA (make_pots_by_elo teamsA)) 0 []).all
      (fun c => decide (8 ≤ c.length)) = true) ∧
    (drawFromPots 0 (fun _ => (0, 0)) (potsToIdx teamsA (make_pots_by_elo teamsA)) 0 []).isSome :=
  ⟨by decide, by decide,
    (swiss_candidate_lists_never_exhausted teamsA (fun _ => (0, 0)) 0
      (by decide) (by decide)).1,
    (swiss_candidate_lists_never_exhausted teamsA (fun _ => (0, 0)) 0
      (by decide) (by decide)).2⟩

/-- C4: for every 36-team pool with pairwise-distinct names, each team's drawn
opponent set has size exactly 8, no duplicates, never contains the drawing team,
and holds exactly 2 indices from each of the 4 pots. -/
theorem swiss_opponent_set_size_eight (teams : List (String × ℤ)) (pick : ℕ → ℕ × ℕ)
    (i : ℕ) (res : List ℕ)
    (h36 : teams.length = 36) (hn : (teams.map Prod.fst).Nodup)
    (hres : drawFromPots i pick (potsToIdx teams (make_pots_by_elo teams)) 0 [] = some res) :
    res.length = 8 ∧ res.Nodup ∧ i ∉ res ∧
    (potsToIdx teams (make_pots_by_elo teams)).length = 4 ∧
    ((potsToIdx teams (make_pots_by_elo teams)).all
      (fun pot => decide ((res.filter (fun x => decide (x ∈ pot))).length = 2)) = true) := by
  have hperm := potsIdx_flatten_perm teams (le_of_eq h36) hn
  have hnd : (([] : List ℕ) ++ (potsToIdx teams (make_pots_by_elo teams)).flatten).Nodup := by
    rw [List.nil_append]
    exact hperm.nodup_iff.mpr (List.nodup_range _)
  have hlens := potsIdx_lengths teams h36
  have h3 : ∀ pot ∈ potsToIdx teams (make_pots_by_elo teams), 3 ≤ pot.length := by
    intro pot hp
    rw [hlens pot hp]
    omega
  have hpots4 : (potsToIdx teams (make_pots_by_elo teams)).length = 4 := rfl
  obtain ⟨-, res', hres', hresnd, hreslen, hresmem, -, hrespots⟩ :=
    drawFromPots_invariant i pick (potsToIdx teams (make_pots_by_elo teams)) 0 [] hnd h3
  have hre : res = res' := by
    rw [hres] at hres'
    exact Option.some_inj.mp hres'
  subst hre
  refine ⟨by rw [hreslen, hpots4]; rfl, hresnd, ?_, hpots4, ?_⟩
  · intro hi
    rcases hresmem i hi with h | ⟨-, hne⟩
    · simp at h
    · exact hne rfl
  · rw [List.all_eq_true]
    intro pot hpot
    have := hrespots pot hpot
    rw [show (([] : List ℕ).filter (fun x => decide (x ∈ pot))).length = 0 from rfl] at this
    exact decide_eq_true (by omega)

/-- Witness for C4: for `teamsA` and team 0, the drawn opponent set is the
concrete list `[1, 2, 9, 10, 18, 19, 27, 28]`, which satisfies the invariant. -/
theorem swiss_opponent_set_size_eight_witness :
    (drawFromPots 0 (fun _ => (0, 0)) (potsToIdx teamsA (make_pots_by_elo teamsA)) 0 [] =
      some [1, 2, 9, 10, 18, 19, 27, 28]) ∧
    ([1, 2, 9, 10, 18, 19, 27, 28] : List ℕ).length = 8 ∧
    ([1, 2, 9, 10, 18, 19, 27, 28] : List ℕ).Nodup ∧
    0 ∉ ([1, 2, 9, 10, 18, 19, 27, 28] : List ℕ) ∧
    (potsToIdx teamsA (make_pots_by_elo teamsA)).length = 4 ∧
    ((potsToIdx teamsA (make_pots_by_elo teamsA)).all
      (fun pot => decide ((([1, 2, 9, 10, 18, 19, 27, 28] : List ℕ).filter
        (fun x => decide (x ∈ pot))).length = 2)) = true) := by
  have h := swiss_opponent_set_size_eight teamsA (fun _ => (0, 0)) 0
    ([1, 2, 9, 10, 18, 19, 27, 28]) (by decide) (by decide) (by decide)
  exact ⟨by decide, h.1, h.2.1, h.2.2.1, h.2.2.2.1, h.2.2.2.2⟩

/-- Point accumulation of one Swiss team succeeds whenever every opponent index
is in range. -/
lemma teamPoints_isSome (teams : List (String × ℤ)) (ei : ℤ) :
    ∀ (opps : List ℕ) (rs : ℕ → ℝ) (k : ℕ), (∀ j ∈ opps, j < teams.length) →
      (teamPoints teams ei opps rs k).isSome
  | [], _, _, _ => by simp [teamPoints]
  | j :: rest, rs, k, hb => by
    have hj : j < teams.length := hb j (List.mem_cons_self ..)
    have hrec := teamPoints_isSome teams ei rest rs (k + 1)
      (fun x hx => hb x (List.mem_cons_of_mem _ hx))
    simp only [teamPoints]
    rw [List.get?_eq_get hj]
    simpa using hrec

/-- The Swiss per-team loop succeeds for any list of in-range team indices as
soon as the pots are duplicate-free, have at least 3 members each, and contain
only in-range indices. -/
lemma swissPhaseCore_isSome (teams : List (String × ℤ)) (potsI : List (List ℕ))
    (pick : ℕ → ℕ → ℕ × ℕ) (rsM : ℕ → ℕ → ℝ)
    (Hnd : potsI.flatten.Nodup) (H3 : ∀ pot ∈ potsI, 3 ≤ pot.length)
    (Hb : ∀ x ∈ potsI.flatten, x < teams.length) :
    ∀ l : List ℕ, (∀ i ∈ l, i < teams.length) →
      (swissPhaseCore teams potsI pick rsM l).isSome
  | [], _ => by simp [swissPhaseCore]
  | i :: rest, hl => by
    have hi : i < teams.length := hl i (List.mem_cons_self ..)
    obtain ⟨-, res, hres, -, -, hmem, -, -⟩ :=
      drawFromPots_invariant i (pick i) potsI 0 [] (by simpa using Hnd) H3
    have hbres : ∀ j ∈ res, j < teams.length := by
      intro j hj
      rcases hmem j hj with h | ⟨hjf, -⟩
      · simp at h
      · exact Hb j hjf
    obtain ⟨pi, hpi⟩ := Option.isSome_iff_exists.mp
      (teamPoints_isSome teams (teams.get ⟨i, hi⟩).2 res (rsM i) 0 hbres)
    obtain ⟨tl, htl⟩ := Option.isSome_iff_exists.mp
      (swissPhaseCore_isSome teams potsI pick rsM Hnd H3 Hb rest
        (fun x hx => hl x (List.mem_cons_of_mem _ hx)))
    simp only [swissPhaseCore, List.get?_eq_get hi, hres, hpi, htl, Option.isSome_some]

/-- C3 (code evaluated at the failing input): a 35-team pool does not match the
Swiss format's required size of 36, yet the simulator completes the whole
league phase without any error for every random stream — no size validation
rejects the input before fixtures are simulated. -/
theorem swiss_wrong_size_not_rejected :
    teamsC.length ≠ 36 ∧
    ∀ (pick : ℕ → ℕ → ℕ × ℕ) (rsM : ℕ → ℕ → ℝ),
      (simulate_swiss_league_phase teamsC pick rsM).isSome := by
  refine ⟨by decide, ?_⟩
  intro pick rsM
  have hn : (teamsC.map Prod.fst).Nodup := by decide
  have hperm := potsIdx_flatten_perm teamsC (by decide) hn
  have hnd := hperm.nodup_iff.mpr (List.nodup_range _)
  have hb : ∀ x ∈ (potsToIdx teamsC (make_pots_by_elo teamsC)).flatten,
      x < teamsC.length := by
    intro x hx
    exact List.mem_range.mp (hperm.mem_iff.mp hx)
  have h3 : ∀ pot ∈ potsToIdx teamsC (make_pots_by_elo teamsC), 3 ≤ pot.length := by decide
  show (swissPhaseCore teamsC (potsToIdx teamsC (make_pots_by_elo teamsC)) pick rsM
    (List.range teamsC.length)).isSome
  exact swissPhaseCore_isSome teamsC _ pick rsM hnd h3 hb (List.range teamsC.length)
    (fun i hi => List.mem_range.mp hi)

/-- C10 counterexample: for the tied-ratings pool `teamsB`, the permutation
`orderB` is rating-descending (so NumPy's unstable argsort is permitted to
return it), yet the `main.py` pot construction built from it differs from the
stable `swiss.py` pot construction — with tied ratings the two simulators are
not guaranteed to place the same teams in the same pot positions. -/
theorem argsort_pots_counterexample :
    orderB.Perm (List.range teamsB.length) ∧
    ((orderB.map (fun k => (teamsB.getD k ("", 0)).2)).Sorted (· ≥ ·)) ∧
    make_pots_main teamsB orderB ≠ make_pots_by_elo teamsB :=
  ⟨by decide, by decide, by decide⟩

/-- C10 (amended): for every 36-team pool with pairwise-distinct ratings, any
rating-descending argsort permutation yields exactly the stable sorted order, so
the duplicated Swiss-phase simulators of `main.py` and `swiss.py` build the same
pots and compute equal points for every choice oracle and every draw stream. -/
theorem swiss_main_refinement (teams : List (String × ℤ)) (order : List ℕ)
    (hperm : order.Perm (List.range teams.length))
    (hsort : (order.map (fun k => (teams.getD k ("", 0)).2)).Sorted (· ≥ ·))
    (helo : (teams.map (fun t => t.2)).Nodup) :
    ∀ (pick : ℕ → ℕ → ℕ × ℕ) (rsM : ℕ → ℕ → ℝ),
      simulate_swiss_league_phase_main teams order pick rsM =
        simulate_swiss_league_phase teams pick rsM := by
  have hget : (List.range teams.length).map (fun k => teams.getD k ("", 0)) = teams := by
    apply List.ext_get
    · simp
    · intro n h1 h2
      rw [List.get_map, List.get_range, List.getD_eq_getElem teams ("", 0) h2,
        List.get_eq_getElem]
  have hmain_eq : order.map (fun k => teams.getD k ("", 0)) =
      List.insertionSort (fun a b : String × ℤ => b.2 ≤ a.2) teams := by
    have hp1 : (order.map (fun k => teams.getD k ("", 0))).Perm teams := by
      have := hperm.map (fun k => teams.getD k ("", 0))
      rwa [hget] at this
    have hp2 := List.perm_insertionSort (fun a b : String × ℤ => b.2 ≤ a.2) teams
    have hsort1 : (order.map (fun k => teams.getD k ("", 0))).Sorted
        (fun a b : String × ℤ => b.2 ≤ a.2) := by
      have hmm : order.map (fun k => (teams.getD k ("", 0)).2)
          = (order.map (fun k => teams.getD k ("", 0))).map (fun t => t.2) := by
        rw [List.map_map]
        rfl
      rw [hmm, List.Sorted, List.pairwise_map] at hsort
      exact hsort
    have hsort2 : (List.insertionSort (fun a b : String × ℤ => b.2 ≤ a.2) teams).Sorted
        (fun a b : String × ℤ => b.2 ≤ a.2) := by
      haveI : IsTotal (String × ℤ) (fun a b => b.2 ≤ a.2) := ⟨fun a b => le_total b.2 a.2⟩
      haveI : IsTrans (String × ℤ) (fun a b => b.2 ≤ a.2) :=
        ⟨fun a b c hab hbc => le_trans hbc hab⟩
      exact List.sorted_insertionSort _ teams
    have hstrict : ∀ l : List (String × ℤ), l.Perm teams →
        l.Sorted (fun a b : String × ℤ => b.2 ≤ a.2) →
        l.Sorted (fun a b : String × ℤ => b.2 < a.2) := by
      intro l hl hsd
      have hnl : (l.map (fun t => t.2)).Nodup := ((hl.map (fun t => t.2)).nodup_iff).mpr helo
      have hne : l.Pairwise (fun a b : String × ℤ => a.2 ≠ b.2) := by
        rw [List.Nodup, List.pairwise_map] at hnl
        exact hnl
      rw [List.Sorted] at hsd ⊢
      exact (hsd.and hne).imp (fun h => lt_of_le_of_ne h.1 (Ne.symm h.2))
    haveI : IsAntisymm (String × ℤ) (fun a b : String × ℤ => b.2 < a.2) :=
      ⟨fun a b h1 h2 => absurd (lt_trans h1 h2) (lt_irrefl _)⟩
    exact List.eq_of_perm_of_sorted (hp1.trans hp2.symm)
      (hstrict _ hp1 hsort1) (hstrict _ hp2 hsort2)
  have hpots : make_pots_main teams order = make_pots_by_elo teams := by
    simp only [make_pots_main, make_pots_by_elo]
    rw [hmain_eq]
  intro pick rsM
  simp only [simulate_swiss_league_phase_main, simulate_swiss_league_phase]
  rw [hpots]

/-- Witness for C10's amended theorem: the distinct-ratings pool `teamsA`, its
unique rating-descending permutation, and concrete oracles. -/
theorem swiss_main_refinement_witness :
    simulate_swiss_league_phase_main teamsA (List.range 36) (fun _ _ => (0, 0))
      (fun _ _ => 0) = simulate_swiss_league_phase teamsA (fun _ _ => (0, 0)) (fun _ _ => 0) :=
  swiss_main_refinement teamsA (List.range 36) (by decide) (by decide) (by decide)
    (fun _ _ => (0, 0)) (fun _ _ => 0)

end SimTools
